import Mathlib

/-!
Verification of the ingestion-and-alignment core of `drone_sync_beta.py`.

The Python source performs its numeric work in IEEE-754 double precision
(`1000.0 / fps`, `total_ms / frame_ms`, `timedelta.total_seconds()`,
`round(...)`).  We embed that arithmetic faithfully: a double value is
represented by the exact rational it denotes, and every arithmetic
operation rounds its exact rational result to 53 significant bits with
round-to-nearest, ties-to-even — exactly the IEEE-754 binary64 rule for
results in the normal range (all values arising here are far from the
subnormal/overflow thresholds, where this model and binary64 agree).
-/

namespace DroneSync

/-- Round a rational to the nearest integer, ties to even
(the rounding used both inside IEEE-754 operations and by Python's
built-in `round`). -/
def rne (q : ℚ) : ℤ :=
  if q - (⌊q⌋ : ℚ) < 1/2 then ⌊q⌋
  else if 1/2 < q - (⌊q⌋ : ℚ) then ⌊q⌋ + 1
  else if Even ⌊q⌋ then ⌊q⌋ else ⌊q⌋ + 1

/-- Floor binary logarithm by structural recursion on a fuel argument
(any fuel ≥ n computes ⌊log₂ n⌋ for n ≥ 1). -/
def log2fuel : ℕ → ℕ → ℕ
  | 0, _ => 0
  | f+1, n => if 2 ≤ n then log2fuel f (n / 2) + 1 else 0

/-- ⌊log₂ n⌋ for n ≥ 1. -/
def natLog2 (n : ℕ) : ℕ := log2fuel n n

/-- Ceiling binary logarithm by structural recursion on fuel. -/
def clog2fuel : ℕ → ℕ → ℕ
  | 0, _ => 0
  | f+1, n => if 2 ≤ n then clog2fuel f ((n + 1) / 2) + 1 else 0

/-- ⌈log₂ n⌉ for n ≥ 1. -/
def natClog2 (n : ℕ) : ℕ := clog2fuel n n

/-- ⌊log₂ q⌋ of a positive rational: the exponent of its leading binary
digit, so that 2 ^ ratLog2 q ≤ q < 2 ^ (ratLog2 q + 1). -/
def ratLog2 (q : ℚ) : ℤ :=
  if 1 ≤ q then (natLog2 ⌊q⌋₊ : ℤ) else -(natClog2 ⌈q⁻¹⌉₊ : ℤ)

/-- Round a positive rational to 53 significant binary digits,
nearest/ties-even: the binary64 rounding of a positive real in the
normal range. -/
def roundDoublePos (q : ℚ) : ℚ :=
  (rne (q / 2 ^ (ratLog2 q - 52)) : ℚ) * 2 ^ (ratLog2 q - 52)

/-- Binary64 rounding of an exact rational (normal range; zero and
negatives by sign symmetry, as in IEEE-754). -/
def roundDouble (q : ℚ) : ℚ :=
  if q = 0 then 0
  else if 0 < q then roundDoublePos q
  else -(roundDoublePos (-q))

/-- IEEE double division: round the exact quotient. -/
def fdiv (a b : ℚ) : ℚ := roundDouble (a / b)

/-- IEEE double multiplication: round the exact product. -/
def fmul (a b : ℚ) : ℚ := roundDouble (a * b)

/-- Conversion of a Python `int` to a double (rounds when ≥ 2^53). -/
def floatOfNat (n : ℕ) : ℚ := roundDouble (n : ℚ)

/-- Python `int(x)` on a float: truncation toward zero. -/
def pyTrunc (q : ℚ) : ℤ := if 0 ≤ q then ⌊q⌋ else -⌊-q⌋

/-- Python `round(x)` on a float (no digits argument): nearest integer,
ties to even, decided on the exact value of the double. -/
def pyRound (q : ℚ) : ℤ := rne q

/-! ## Data model: naive datetimes as produced by `datetime.strptime` -/

/-- A naive Python `datetime` (no timezone), as produced by
`datetime.strptime(..., "%Y-%m-%d %H:%M:%S.%f")`. -/
structure PyDateTime where
  year : ℕ
  month : ℕ
  day : ℕ
  hour : ℕ
  minute : ℕ
  second : ℕ
  microsecond : ℕ
deriving DecidableEq

/-- Field ranges enforced by the `datetime` constructor (day validity
against the month is checked separately by `strptimeTs`). -/
def PyDateTime.Valid (ts : PyDateTime) : Prop :=
  1 ≤ ts.month ∧ ts.month ≤ 12 ∧ 1 ≤ ts.day ∧ ts.day ≤ 31 ∧
  ts.hour ≤ 23 ∧ ts.minute ≤ 59 ∧ ts.second ≤ 59 ∧ ts.microsecond < 1000000

instance (ts : PyDateTime) : Decidable ts.Valid := by
  unfold PyDateTime.Valid
  infer_instance

/-- Python's chronological comparison of naive datetimes
(lexicographic on the seven fields). -/
def dtLe (a b : PyDateTime) : Prop :=
  a.year < b.year ∨ (a.year = b.year ∧ (a.month < b.month ∨ (a.month = b.month ∧
    (a.day < b.day ∨ (a.day = b.day ∧ (a.hour < b.hour ∨ (a.hour = b.hour ∧
      (a.minute < b.minute ∨ (a.minute = b.minute ∧ (a.second < b.second ∨
        (a.second = b.second ∧ a.microsecond ≤ b.microsecond)))))))))))

/-- Microseconds elapsed since the timestamp's own midnight: the exact
value of `ts - ts.replace(hour=0, minute=0, second=0, microsecond=0)`
(datetime subtraction is exact integer arithmetic on microseconds). -/
def timeOfDayMicroseconds (ts : PyDateTime) : ℕ :=
  ((ts.hour * 60 + ts.minute) * 60 + ts.second) * 1000000 + ts.microsecond

/-- `timedelta.total_seconds()`: CPython computes
`((days*86400 + seconds)*10**6 + microseconds) / 10**6`, a single
correctly-rounded double division of exact integers. -/
def totalSecondsFloat (micros : ℕ) : ℚ := fdiv (micros : ℚ) 1000000

/-- `compute_record_frame(ts, fps)` from the source (lines 42-45):
`int(round(delta.total_seconds() * fps))`, where the multiplication by
the integer frame rate is a double multiplication and Python's `round`
rounds half to even on the exact double value (`int` of an `int` is the
identity). -/
def compute_record_frame (ts : PyDateTime) (fps : ℕ) : ℤ :=
  pyRound (fmul (totalSecondsFloat (timeOfDayMicroseconds ts)) (floatOfNat fps))

/-! ## Sidecar text scanning (the regex layer, over character lists) -/

/-- Numeric value of a digit string: `int()` applied to a regex capture. -/
def digitsToNat (ds : List Char) : ℕ :=
  ds.foldl (fun acc c => 10 * acc + (c.toNat - 48)) 0

/-- Scanner for `re.findall(r"DiffTime: (\d+)ms", content)`, structurally
recursive on a fuel bound so that proofs can evaluate it.  At a given
position a match is the literal `DiffTime: `, a nonempty digit run, then
`ms`; since `m` is not a digit, the greedy `\d+` can only succeed on the
maximal run.  On failure the engine advances one position; after a match
it resumes after the consumed `ms`.  Every step consumes at least one
character, so any fuel ≥ the text length is enough. -/
def findDiffTimesF : ℕ → List Char → List ℕ
  | 0, _ => []
  | f+1, 'D' :: 'i' :: 'f' :: 'f' :: 'T' :: 'i' :: 'm' :: 'e' :: ':' :: ' ' :: rest =>
    match rest.takeWhile Char.isDigit,
        rest.drop (rest.takeWhile Char.isDigit).length with
    | d :: ds, 'm' :: 's' :: tail => digitsToNat (d :: ds) :: findDiffTimesF f tail
    | _, _ => findDiffTimesF f ('i' :: 'f' :: 'f' :: 'T' :: 'i' :: 'm' :: 'e' :: ':' :: ' ' :: rest)
  | f+1, _ :: cs => findDiffTimesF f cs
  | _+1, [] => []

/-- `re.findall(r"DiffTime: (\d+)ms", content)` (line 31): captures of the
non-overlapping matches, scanning left to right. -/
def findDiffTimes (l : List Char) : List ℕ := findDiffTimesF l.length l

/-- Scanner for `re.findall(r"FrameCnt: (\d+)", content)`, counting the
non-overlapping matches; fuel as in `findDiffTimesF`. -/
def countFrameCntF : ℕ → List Char → ℕ
  | 0, _ => 0
  | f+1, 'F' :: 'r' :: 'a' :: 'm' :: 'e' :: 'C' :: 'n' :: 't' :: ':' :: ' ' :: rest =>
    match rest.takeWhile Char.isDigit with
    | d :: ds => countFrameCntF f (rest.drop (d :: ds).length) + 1
    | [] => countFrameCntF f ('r' :: 'a' :: 'm' :: 'e' :: 'C' :: 'n' :: 't' :: ':' :: ' ' :: rest)
  | f+1, _ :: cs => countFrameCntF f cs
  | _+1, [] => 0

/-- `len(re.findall(r"FrameCnt: (\d+)", content))` (lines 36-38): the
number of non-overlapping matches; the parsed values are unused. -/
def countFrameCnt (l : List Char) : ℕ := countFrameCntF l.length l

/-- `get_clip_duration_frames` (lines 29-39): if any `DiffTime` marker is
present, `int(total_ms / (1000.0 / fps))` in double arithmetic; else the
number of `FrameCnt` markers if nonzero; else `None`. -/
def get_clip_duration_frames (content : List Char) (fps : ℕ) : Option ℤ :=
  match findDiffTimes content with
  | [] =>
    match countFrameCnt content with
    | 0 => none
    | n => some (n : ℤ)
  | ds => some (pyTrunc (fdiv (floatOfNat ds.sum) (fdiv 1000 (floatOfNat fps))))

/-- Raw field captures of a timestamp-shaped substring. -/
structure TsRaw where
  y : ℕ
  mo : ℕ
  d : ℕ
  h : ℕ
  mi : ℕ
  s : ℕ
  ms : ℕ
deriving DecidableEq

/-- Exactly n characters, all decimal digits; returns them and the rest. -/
def grabDigits : ℕ → List Char → Option (List Char × List Char)
  | 0, l => some ([], l)
  | _+1, [] => none
  | n+1, c :: cs =>
    if c.isDigit then (grabDigits n cs).map (fun p => (c :: p.1, p.2)) else none

/-- Consume one expected literal character. -/
def expectChar (a : Char) : List Char → Option (List Char)
  | [] => none
  | c :: cs => if c = a then some cs else none

/-- Match `\d{4}-\d{2}-\d{2} \d{2}:\d{2}:\d{2}\.\d{3}` at the start of the
text (all repetition counts fixed, so the pattern is backtracking-free). -/
def matchTimestampAt (l : List Char) : Option TsRaw :=
  (grabDigits 4 l).bind fun py =>
  (expectChar '-' py.2).bind fun r1 =>
  (grabDigits 2 r1).bind fun pmo =>
  (expectChar '-' pmo.2).bind fun r2 =>
  (grabDigits 2 r2).bind fun pd =>
  (expectChar ' ' pd.2).bind fun r3 =>
  (grabDigits 2 r3).bind fun ph =>
  (expectChar ':' ph.2).bind fun r4 =>
  (grabDigits 2 r4).bind fun pmi =>
  (expectChar ':' pmi.2).bind fun r5 =>
  (grabDigits 2 r5).bind fun ps =>
  (expectChar '.' ps.2).bind fun r6 =>
  (grabDigits 3 r6).bind fun pms =>
  some ⟨digitsToNat py.1, digitsToNat pmo.1, digitsToNat pd.1,
        digitsToNat ph.1, digitsToNat pmi.1, digitsToNat ps.1, digitsToNat pms.1⟩

/-- `re.search(pattern, content)` (line 23): the match at the leftmost
position where the pattern succeeds. -/
def findTimestamp : List Char → Option TsRaw
  | [] => none
  | c :: cs =>
    match matchTimestampAt (c :: cs) with
    | some f => some f
    | none => findTimestamp cs

/-- Gregorian leap-year rule used by `datetime`. -/
def isLeapYear (y : ℕ) : Bool :=
  (y % 4 == 0 && y % 100 != 0) || y % 400 == 0

/-- Length of a month, as validated by the `datetime` constructor. -/
def daysInMonth (y m : ℕ) : ℕ :=
  if m = 2 then (if isLeapYear y then 29 else 28)
  else if m = 4 ∨ m = 6 ∨ m = 9 ∨ m = 11 then 30
  else 31

/-- `datetime.strptime(s, "%Y-%m-%d %H:%M:%S.%f")` on a string already of
the matched shape: `_strptime`'s format regex plus the `datetime`
constructor accept exactly year ≥ 1, month 1-12, a valid calendar day,
hour ≤ 23, minute ≤ 59, second ≤ 59 (the regex's 60/61 leap seconds are
rejected by the constructor); the three fractional digits are
right-padded to microseconds.  Everything else raises `ValueError`,
modelled as `none`. -/
def strptimeTs (f : TsRaw) : Option PyDateTime :=
  if 1 ≤ f.y ∧ 1 ≤ f.mo ∧ f.mo ≤ 12 ∧ 1 ≤ f.d ∧ f.d ≤ daysInMonth f.y f.mo ∧
      f.h ≤ 23 ∧ f.mi ≤ 59 ∧ f.s ≤ 59 then
    some ⟨f.y, f.mo, f.d, f.h, f.mi, f.s, f.ms * 1000⟩
  else none

/-- `parse_srt_for_timestamp` (lines 21-26): search for the first
timestamp-shaped substring of the decoded text; no match gives `None`;
a match is handed to `strptime`, which raises `ValueError` — modelled as
`.error ()` — when the matched text is not a valid calendar datetime. -/
def parse_srt_for_timestamp (content : List Char) : Except Unit (Option PyDateTime) :=
  match findTimestamp content with
  | none => .ok none
  | some f =>
    match strptimeTs f with
    | some dt => .ok (some dt)
    | none => .error ()

/-- Decidable equality for `Except` results, to state concrete outcomes. -/
instance {e a : Type} [DecidableEq e] [DecidableEq a] : DecidableEq (Except e a) := fun x y =>
  match x, y with
  | .ok v, .ok w => if h : v = w then .isTrue (by rw [h]) else .isFalse (by simp [h])
  | .error v, .error w => if h : v = w then .isTrue (by rw [h]) else .isFalse (by simp [h])
  | .ok _, .error _ => .isFalse (by simp)
  | .error _, .ok _ => .isFalse (by simp)

/-! ## Grouping by calendar day (main, lines 227-238) -/

/-- Two-digit zero-padded decimal rendering, as `strftime` produces for
`%y`, `%m` and `%d` values below 100. -/
def twoDigits (n : ℕ) : List Char :=
  [Char.ofNat (48 + n / 10 % 10), Char.ofNat (48 + n % 10)]

/-- `ts.strftime('%y-%m-%d')` (line 237): the day-group key derived from
the clip's own sidecar timestamp. -/
def dayKeyChars (ts : PyDateTime) : List Char :=
  twoDigits (ts.year % 100) ++ '-' :: (twoDigits ts.month ++ '-' :: twoDigits ts.day)

/-- One `(v, srt, ts)` tuple appended in line 238: the video path, the
sidecar's decoded content, and the parsed timestamp. -/
structure ClipItem where
  video : List Char
  srt : List Char
  ts : PyDateTime
deriving DecidableEq

/-- `group_by_date.setdefault(realdate, []).append(item)`: Python dicts
preserve insertion order; an existing bucket is appended to, a missing
key is added at the end. -/
def insertClip (k : List Char) (c : ClipItem) :
    List (List Char × List ClipItem) → List (List Char × List ClipItem)
  | [] => [(k, [c])]
  | (k', cs) :: rest =>
    if k' = k then (k', cs ++ [c]) :: rest else (k', cs) :: insertClip k c rest

/-- The `group_by_date` dict built by the loop in lines 228-238. -/
def groupByDate (items : List ClipItem) : List (List Char × List ClipItem) :=
  items.foldl (fun acc c => insertClip (dayKeyChars c.ts) c acc) []

/-! ## Placement entries and the stable sort (main, lines 279-297) -/

/-- One `clip_infos` dict (lines 281-288): the trim window fields are
present iff a duration was derived (then `startFrame = 0` and
`endFrame = duration`). -/
structure ClipInfo where
  mediaItem : List Char
  trackIndex : ℕ
  recordFrame : ℤ
  trimEnd : Option ℤ
deriving DecidableEq

/-- The entry built for one imported clip (lines 279-289). -/
def buildClipInfo (fps : ℕ) (c : ClipItem) : ClipInfo :=
  { mediaItem := c.video
    trackIndex := 1
    recordFrame := compute_record_frame c.ts fps
    trimEnd := get_clip_duration_frames c.srt fps }

/-- The `clip_infos` list in discovery order. -/
def clipInfosOf (fps : ℕ) (items : List ClipItem) : List ClipInfo :=
  items.map (buildClipInfo fps)

/-- Stable insertion: an element moves left exactly past entries with a
strictly larger key, so equal keys keep their original order. -/
def insertByKey (x : ClipInfo) : List ClipInfo → List ClipInfo
  | [] => [x]
  | y :: ys =>
    if y.recordFrame < x.recordFrame then y :: insertByKey x ys else x :: y :: ys

/-- `clip_infos.sort(key=lambda x: x['recordFrame'])` (line 297): Python's
sort is stable (Timsort); every stable sort computes the same list, here
realised as stable insertion sort. -/
def pySortByRecordFrame (l : List ClipInfo) : List ClipInfo :=
  l.foldr insertByKey []

/-! ## Resolution reconciliation (main, lines 258-278) -/

/-- One attempt of `(\d{3,5})x(\d{3,5})` at a fixed position with first
group of width k: k digits, the literal `x`, then 3-5 digits (greedy). -/
def tryWidth (k : ℕ) (l : List Char) : Option (ℕ × ℕ) :=
  if (l.take k).length = k ∧ (l.take k).all Char.isDigit then
    match l.drop k with
    | 'x' :: rest =>
      if 3 ≤ (rest.takeWhile Char.isDigit).length then
        some (digitsToNat (l.take k), digitsToNat ((rest.takeWhile Char.isDigit).take 5))
      else none
    | _ => none
  else none

/-- `(\d{3,5})x(\d{3,5})` at one position: the engine tries the greedy
width 5 first, backtracking to 4, then 3. -/
def matchResAt (l : List Char) : Option (ℕ × ℕ) :=
  match tryWidth 5 l with
  | some r => some r
  | none =>
    match tryWidth 4 l with
    | some r => some r
    | none => tryWidth 3 l

/-- `re.search(r"(\d{3,5})x(\d{3,5})", s)` (lines 264, 272): the match at
the leftmost position where the pattern succeeds. -/
def findRes : List Char → Option (ℕ × ℕ)
  | [] => none
  | c :: cs =>
    match matchResAt (c :: cs) with
    | some r => some r
    | none => findRes cs

/-- The `max_w, max_h` fold (lines 258-278): each clip's resolution value
(`none` when missing, not a string, or inside a raised exception) is
parsed; a strictly larger width×height product replaces the running
maximum, so ties keep the first encountered pair. -/
def reconcileResolution (ress : List (Option (List Char))) : ℕ × ℕ :=
  ress.foldl
    (fun mw r =>
      match r with
      | none => mw
      | some s =>
        match findRes s with
        | none => mw
        | some (w, h) => if mw.1 * mw.2 < w * h then (w, h) else mw)
    (0, 0)

/-- The comparison step of the resolution fold, on already-parsed pairs:
keep the incoming pair only when its area is strictly larger. -/
def resStep (mw wh : ℕ × ℕ) : ℕ × ℕ :=
  if mw.1 * mw.2 < wh.1 * wh.2 then wh else mw

/-! ## Export filename sanitization (lines 159-160) -/

/-- The character class `[\\/:*?"<>|]`. -/
def forbiddenChar (c : Char) : Bool :=
  c == '\\' || c == '/' || c == ':' || c == '*' || c == '?' || c == '"' ||
    c == '<' || c == '>' || c == '|'

/-- `safe_filename` (lines 159-160): `re.sub` replaces every occurrence of
the single-character class — i.e. each forbidden character — with one
underscore. -/
def safe_filename (name : List Char) : List Char :=
  name.map fun c => if forbiddenChar c then '_' else c

/-! ## Startup checks of `main` (lines 163-217) -/

/-- State-changing effects `main` can perform before clip processing. -/
inductive StartupEffect
  | mkdirOutput
  | setProjectFrameRate
deriving DecidableEq

/-- The configuration and console interactions the startup branches on:
filesystem facts about the source path, the frame rate, the discovered
camera/date folders, the user's selections, and whether a host project is
open. -/
structure MainConfig where
  pathExists : Bool
  pathIsDir : Bool
  fps : ℤ
  cams : List (List Char)
  dateSubdirs : List (List Char)
  dateSel : List ℕ
  camsOfSelected : List (List Char)
  camSel : List ℕ
  projectOpen : Bool

/-- The configuration-checking prefix of `main` (lines 170-217): the
state-changing effects performed, and the abort message if the run stops
before clip processing (`none` means startup succeeded).  The export
directory is created (line 177) after the source-path check (line 174)
but before the frame-rate check (line 178). -/
def mainStartup (cfg : MainConfig) : List StartupEffect × Option (List Char) :=
  if ¬(cfg.pathExists ∧ cfg.pathIsDir) then ([], some "日期文件夹不存在".data)
  else if cfg.fps ≤ 0 then ([.mkdirOutput], some "帧率必须为正整数".data)
  else if cfg.cams.isEmpty then
    if cfg.dateSubdirs.isEmpty then
      ([.mkdirOutput], some "未检测到机位文件夹或日期子文件夹".data)
    else if cfg.dateSel.isEmpty then ([.mkdirOutput], some "未选择日期文件夹".data)
    else if cfg.camsOfSelected.isEmpty then
      ([.mkdirOutput], some "所选日期文件夹下仍未检测到机位文件夹（CAM*）".data)
    else if cfg.camSel.isEmpty then ([.mkdirOutput], some "未选择任何机位".data)
    else if ¬cfg.projectOpen then
      ([.mkdirOutput], some "未检测到打开的达芬奇项目，请先打开 DaVinci Resolve 并加载项目".data)
    else ([.mkdirOutput, .setProjectFrameRate], none)
  else if cfg.camSel.isEmpty then ([.mkdirOutput], some "未选择任何机位".data)
  else if ¬cfg.projectOpen then
    ([.mkdirOutput], some "未检测到打开的达芬奇项目，请先打开 DaVinci Resolve 并加载项目".data)
  else ([.mkdirOutput, .setProjectFrameRate], none)

/-! ## Video discovery (`norm_ext` lines 73-79, `scan_videos` lines 103-110) -/

/-- The tag `norm_ext` returns (`'video'`, `'srt'`, `''`). -/
inductive ExtKind
  | video
  | srt
  | other
deriving DecidableEq

/-- ASCII lowercasing: the fragment of `str.lower()` relevant to the
pure-ASCII extension tests. -/
def asciiLower (c : Char) : Char :=
  if 'A' ≤ c ∧ c ≤ 'Z' then Char.ofNat (c.toNat + 32) else c

def lowerStr (l : List Char) : List Char := l.map asciiLower

/-- `norm_ext` (lines 73-79): classify by lowercased name suffix. -/
def norm_ext (name : List Char) : ExtKind :=
  if ".mp4".data.isSuffixOf (lowerStr name) || ".mov".data.isSuffixOf (lowerStr name) then
    ExtKind.video
  else if ".srt".data.isSuffixOf (lowerStr name) then ExtKind.srt
  else ExtKind.other

/-- One entry yielded by `cam_folder.rglob('*')`: pathlib's `*` matches
dot-entries and its `**` descends into dot-directories, so the walk
yields every descendant.  `dirs` is the chain of directory names below
the camera folder, `base` the entry's own name. -/
structure FsEntry where
  dirs : List (List Char)
  base : List Char
  isFile : Bool
deriving DecidableEq

/-- `scan_videos` (lines 103-110): skip entries whose own basename starts
with `._` or `.`, keep regular files classified as video, in traversal
order. -/
def scan_videos (entries : List FsEntry) : List FsEntry :=
  entries.filter fun e =>
    !(decide (e.base.take 2 = "._".data) || decide (e.base.take 1 = ".".data)) &&
      (e.isFile && decide (norm_ext e.base = ExtKind.video))

section RneLemmas

theorem floor_le_rne (q : ℚ) : ⌊q⌋ ≤ rne q := by
  unfold rne
  split
  · exact le_refl _
  · split
    · exact le_of_lt (lt_add_one _)
    · split
      · exact le_refl _
      · exact le_of_lt (lt_add_one _)

theorem rne_le_floor_add_one (q : ℚ) : rne q ≤ ⌊q⌋ + 1 := by
  unfold rne
  split
  · exact le_of_lt (lt_add_one _)
  · split
    · exact le_refl _
    · split
      · exact le_of_lt (lt_add_one _)
      · exact le_refl _

theorem rne_intCast (n : ℤ) : rne (n : ℚ) = n := by
  unfold rne
  rw [Int.floor_intCast]
  norm_num

theorem abs_rne_sub_le (q : ℚ) : |(rne q : ℚ) - q| ≤ 1/2 := by
  have hfl : (⌊q⌋ : ℚ) ≤ q := Int.floor_le q
  have hfl' : q - 1 < (⌊q⌋ : ℚ) := Int.sub_one_lt_floor q
  unfold rne
  split
  · rename_i h
    rw [abs_sub_comm, abs_of_nonneg (by linarith)]
    linarith
  · rename_i h
    push_neg at h
    split
    · rename_i h2
      rw [abs_of_nonneg (by push_cast; linarith)]
      push_cast
      linarith
    · rename_i h2
      push_neg at h2
      split
      · rw [abs_sub_comm, abs_of_nonneg (by linarith)]
        linarith
      · rw [abs_of_nonneg (by push_cast; linarith)]
        push_cast
        linarith

theorem rne_eq_floor_add_one_imp {q : ℚ} (h : rne q = ⌊q⌋ + 1) :
    1/2 ≤ q - (⌊q⌋ : ℚ) := by
  unfold rne at h
  split at h
  · omega
  · rename_i h1
    push_neg at h1
    exact h1

theorem rne_eq_floor_imp {q : ℚ} (h : rne q = ⌊q⌋) : q - (⌊q⌋ : ℚ) ≤ 1/2 := by
  unfold rne at h
  split at h
  · rename_i h1
    linarith
  · split at h
    · omega
    · rename_i h1 h2
      push_neg at h2
      exact h2

theorem rne_eq_floor_add_one_half {q : ℚ} (h : rne q = ⌊q⌋ + 1)
    (hh : q - (⌊q⌋ : ℚ) = 1/2) : ¬ Even ⌊q⌋ := by
  unfold rne at h
  split at h
  · omega
  · split at h
    · rename_i h2
      rw [hh] at h2
      exact absurd h2 (lt_irrefl _)
    · split at h
      · omega
      · rename_i h3
        exact h3

theorem rne_eq_floor_even {q : ℚ} (h : rne q = ⌊q⌋)
    (hh : 1/2 ≤ q - (⌊q⌋ : ℚ)) : Even ⌊q⌋ := by
  unfold rne at h
  split at h
  · rename_i h1
    linarith
  · split at h
    · omega
    · split at h
      · rename_i h3
        exact h3
      · omega

theorem rne_mono {q r : ℚ} (h : q ≤ r) : rne q ≤ rne r := by
  rcases lt_or_le ⌊q⌋ ⌊r⌋ with hf | hf
  · calc rne q ≤ ⌊q⌋ + 1 := rne_le_floor_add_one q
      _ ≤ ⌊r⌋ := by omega
      _ ≤ rne r := floor_le_rne r
  · have hf' : ⌊q⌋ ≤ ⌊r⌋ := Int.floor_le_floor h
    have hfe : ⌊r⌋ = ⌊q⌋ := le_antisymm hf hf'
    by_contra hlt
    push_neg at hlt
    have hq1 := floor_le_rne q
    have hq2 := rne_le_floor_add_one q
    have hr1 := floor_le_rne r
    have hr2 := rne_le_floor_add_one r
    have h1 : rne q = ⌊q⌋ + 1 := by omega
    have h2 : rne r = ⌊r⌋ := by omega
    have ha := rne_eq_floor_add_one_imp h1
    have hb := rne_eq_floor_imp h2
    have hab : q - (⌊q⌋ : ℚ) ≤ r - (⌊r⌋ : ℚ) := by
      rw [hfe]
      linarith
    have haq : q - (⌊q⌋ : ℚ) = 1/2 := le_antisymm (by linarith) ha
    have hbr : r - (⌊r⌋ : ℚ) = 1/2 := le_antisymm hb (by linarith)
    have hC := rne_eq_floor_add_one_half h1 haq
    have hD := rne_eq_floor_even h2 (le_of_eq hbr.symm)
    rw [hfe] at hD
    exact hC hD

theorem rne_nonneg {q : ℚ} (h : 0 ≤ q) : 0 ≤ rne q :=
  le_trans (Int.floor_nonneg.mpr h) (floor_le_rne q)

end RneLemmas

section Log2Lemmas

theorem log2fuel_bracket : ∀ f n, n ≤ f → 1 ≤ n →
    2 ^ log2fuel f n ≤ n ∧ n < 2 ^ (log2fuel f n + 1) := by
  intro f
  induction f with
  | zero =>
    intro n h1 h2
    exfalso
    omega
  | succ f ih =>
    intro n hnf hn1
    simp only [log2fuel]
    split
    · rename_i h2
      have hd : n / 2 ≤ f := by omega
      have hd1 : 1 ≤ n / 2 := by omega
      obtain ⟨ha, hb⟩ := ih (n / 2) hd hd1
      have hp1 : 2 ^ (log2fuel f (n / 2) + 1) = 2 ^ log2fuel f (n / 2) * 2 :=
        pow_succ _ _
      have hp2 : 2 ^ (log2fuel f (n / 2) + 1 + 1) = 2 ^ (log2fuel f (n / 2) + 1) * 2 :=
        pow_succ _ _
      omega
    · rename_i h2
      norm_num
      omega

theorem natLog2_bracket {n : ℕ} (hn : 1 ≤ n) :
    2 ^ natLog2 n ≤ n ∧ n < 2 ^ (natLog2 n + 1) :=
  log2fuel_bracket n n le_rfl hn

theorem clog2fuel_one (f : ℕ) : clog2fuel f 1 = 0 := by
  cases f with
  | zero => rfl
  | succ f => simp [clog2fuel]

theorem clog2fuel_bracket : ∀ f n, n ≤ f → 2 ≤ n →
    1 ≤ clog2fuel f n ∧ 2 ^ (clog2fuel f n - 1) < n ∧ n ≤ 2 ^ clog2fuel f n := by
  intro f
  induction f with
  | zero =>
    intro n h1 h2
    exfalso
    omega
  | succ f ih =>
    intro n hnf hn2
    rw [clog2fuel, if_pos hn2]
    by_cases hm : 2 ≤ (n + 1) / 2
    · have hd : (n + 1) / 2 ≤ f := by omega
      obtain ⟨h1', h2', h3'⟩ := ih ((n + 1) / 2) hd hm
      refine ⟨by omega, ?_, ?_⟩
      · have hk : clog2fuel f ((n + 1) / 2) - 1 + 1 = clog2fuel f ((n + 1) / 2) := by
          omega
        have hp : 2 ^ clog2fuel f ((n + 1) / 2)
            = 2 ^ (clog2fuel f ((n + 1) / 2) - 1) * 2 := by
          conv_lhs => rw [← hk]
          rw [pow_succ]
        simp only [Nat.add_sub_cancel]
        omega
      · have hp : 2 ^ (clog2fuel f ((n + 1) / 2) + 1)
            = 2 ^ clog2fuel f ((n + 1) / 2) * 2 := pow_succ _ _
        omega
    · have hn : n = 2 := by omega
      subst hn
      norm_num
      rw [clog2fuel_one]
      norm_num

theorem natClog2_bracket {n : ℕ} (hn : 2 ≤ n) :
    1 ≤ natClog2 n ∧ 2 ^ (natClog2 n - 1) < n ∧ n ≤ 2 ^ natClog2 n :=
  clog2fuel_bracket n n le_rfl hn

theorem cast_two_pow (k : ℕ) : (2:ℚ) ^ (k : ℤ) = ((2 ^ k : ℕ) : ℚ) := by
  rw [zpow_natCast]
  push_cast
  ring

theorem ratLog2_bracket {q : ℚ} (hq : 0 < q) :
    (2:ℚ) ^ ratLog2 q ≤ q ∧ q < (2:ℚ) ^ (ratLog2 q + 1) := by
  unfold ratLog2
  split
  · rename_i h1
    have hn1 : 1 ≤ ⌊q⌋₊ := Nat.le_floor (by exact_mod_cast h1)
    have hfl : ((⌊q⌋₊ : ℕ) : ℚ) ≤ q := Nat.floor_le (le_of_lt hq)
    have hfu : q < (⌊q⌋₊ : ℚ) + 1 := Nat.lt_floor_add_one q
    obtain ⟨ha, hb⟩ := natLog2_bracket hn1
    constructor
    · rw [cast_two_pow]
      have ha' : ((2 ^ natLog2 ⌊q⌋₊ : ℕ) : ℚ) ≤ ((⌊q⌋₊ : ℕ) : ℚ) := by
        exact_mod_cast ha
      linarith
    · have hexp : ((natLog2 ⌊q⌋₊ : ℕ) : ℤ) + 1 = (((natLog2 ⌊q⌋₊ + 1 : ℕ)) : ℤ) := by
        omega
      rw [hexp, cast_two_pow]
      have hb' : ((⌊q⌋₊ : ℕ) : ℚ) + 1 ≤ ((2 ^ (natLog2 ⌊q⌋₊ + 1) : ℕ) : ℚ) := by
        exact_mod_cast hb
      linarith
  · rename_i h1
    push_neg at h1
    have hinv1 : 1 < q⁻¹ := by
      rw [lt_inv_comm₀ (by norm_num) hq]
      simpa using h1
    have hm2 : 2 ≤ ⌈q⁻¹⌉₊ := by
      have : 1 < ⌈q⁻¹⌉₊ := Nat.lt_ceil.mpr (by exact_mod_cast hinv1)
      omega
    obtain ⟨hk1, hk2, hk3⟩ := natClog2_bracket hm2
    have hceil_le : q⁻¹ ≤ ((2 ^ natClog2 ⌈q⁻¹⌉₊ : ℕ) : ℚ) :=
      le_trans (Nat.le_ceil q⁻¹) (by exact_mod_cast hk3)
    have hceil_lt : ((2 ^ (natClog2 ⌈q⁻¹⌉₊ - 1) : ℕ) : ℚ) < q⁻¹ := by
      have hc1 : (⌈q⁻¹⌉₊ : ℚ) < q⁻¹ + 1 :=
        Nat.ceil_lt_add_one (le_of_lt (lt_trans (by norm_num) hinv1))
      have hc2 : ((2 ^ (natClog2 ⌈q⁻¹⌉₊ - 1) : ℕ) : ℚ) + 1 ≤ (⌈q⁻¹⌉₊ : ℚ) := by
        exact_mod_cast hk2
      linarith
    constructor
    · rw [zpow_neg, cast_two_pow, inv_le_comm₀ (by positivity) hq]
      exact hceil_le
    · have hexp : -((natClog2 ⌈q⁻¹⌉₊ : ℕ) : ℤ) + 1
          = -(((natClog2 ⌈q⁻¹⌉₊ - 1 : ℕ)) : ℤ) := by
        omega
      rw [hexp, zpow_neg, cast_two_pow, lt_inv_comm₀ hq (by positivity)]
      exact hceil_lt

theorem ratLog2_mono {q r : ℚ} (hq : 0 < q) (h : q ≤ r) :
    ratLog2 q ≤ ratLog2 r := by
  by_contra hlt
  push_neg at hlt
  have h1 := (ratLog2_bracket hq).1
  have h2 := (ratLog2_bracket (lt_of_lt_of_le hq h)).2
  have h3 : (2:ℚ) ^ (ratLog2 r + 1) ≤ 2 ^ ratLog2 q :=
    zpow_le_zpow_right₀ (by norm_num) (by omega)
  linarith

theorem ratLog2_natCast (n : ℕ) (hn : 1 ≤ n) :
    ratLog2 (n : ℚ) = (natLog2 n : ℤ) := by
  unfold ratLog2
  rw [if_pos (by exact_mod_cast hn), Nat.floor_natCast]

end Log2Lemmas

section RoundDoubleLemmas

theorem roundDoublePos_def (q : ℚ) :
    roundDoublePos q =
      (rne (q / 2 ^ (ratLog2 q - 52)) : ℚ) * 2 ^ (ratLog2 q - 52) := rfl

theorem ulp_pos (e : ℤ) : (0:ℚ) < 2 ^ e := zpow_pos (by norm_num) e

theorem scaled_lower {q : ℚ} (hq : 0 < q) :
    (4503599627370496 : ℚ) ≤ q / 2 ^ (ratLog2 q - 52) := by
  have h1 : (2:ℚ) ^ ratLog2 q ≤ q := (ratLog2_bracket hq).1
  rw [le_div_iff (ulp_pos _)]
  calc (4503599627370496 : ℚ) * 2 ^ (ratLog2 q - 52)
      = 2 ^ (52:ℤ) * 2 ^ (ratLog2 q - 52) := by norm_num
    _ = 2 ^ ratLog2 q := by
        rw [← zpow_add₀ (by norm_num : (2:ℚ) ≠ 0)]
        congr 1
        ring
    _ ≤ q := h1

theorem scaled_upper {q : ℚ} (hq : 0 < q) :
    q / 2 ^ (ratLog2 q - 52) < (9007199254740992 : ℚ) := by
  have h2 : q < (2:ℚ) ^ (ratLog2 q + 1) := (ratLog2_bracket hq).2
  rw [div_lt_iff (ulp_pos _)]
  calc q < 2 ^ (ratLog2 q + 1) := h2
    _ = 2 ^ (53:ℤ) * 2 ^ (ratLog2 q - 52) := by
        rw [← zpow_add₀ (by norm_num : (2:ℚ) ≠ 0)]
        congr 1
        ring
    _ = (9007199254740992 : ℚ) * 2 ^ (ratLog2 q - 52) := by norm_num

theorem roundDoublePos_pos {q : ℚ} (hq : 0 < q) : 0 < roundDoublePos q := by
  rw [roundDoublePos_def]
  apply mul_pos _ (ulp_pos _)
  have h := scaled_lower hq
  have h1 : (1:ℚ) ≤ q / 2 ^ (ratLog2 q - 52) := le_trans (by norm_num) h
  have h2 : (1:ℤ) ≤ ⌊q / 2 ^ (ratLog2 q - 52)⌋ := Int.le_floor.mpr (by exact_mod_cast h1)
  have h3 := floor_le_rne (q / 2 ^ (ratLog2 q - 52))
  exact_mod_cast lt_of_lt_of_le (by norm_num : (0:ℤ) < 1) (le_trans h2 h3)

theorem abs_roundDoublePos_sub_le {q : ℚ} (hq : 0 < q) :
    |roundDoublePos q - q| ≤ 2 ^ (ratLog2 q - 53) := by
  rw [roundDoublePos_def]
  have hupos : (0:ℚ) < 2 ^ (ratLog2 q - 52) := ulp_pos _
  have key : (rne (q / 2 ^ (ratLog2 q - 52)) : ℚ) * 2 ^ (ratLog2 q - 52) - q
      = ((rne (q / 2 ^ (ratLog2 q - 52)) : ℚ) - q / 2 ^ (ratLog2 q - 52))
        * 2 ^ (ratLog2 q - 52) := by
    field_simp
  rw [key, abs_mul, abs_of_pos hupos]
  have h1 := abs_rne_sub_le (q / 2 ^ (ratLog2 q - 52))
  calc |(rne (q / 2 ^ (ratLog2 q - 52)) : ℚ) - q / 2 ^ (ratLog2 q - 52)|
        * 2 ^ (ratLog2 q - 52)
      ≤ (1/2) * 2 ^ (ratLog2 q - 52) :=
        mul_le_mul_of_nonneg_right h1 (le_of_lt hupos)
    _ = 2 ^ (ratLog2 q - 53) := by
        rw [show (1/2 : ℚ) = 2 ^ (-1 : ℤ) by norm_num,
          ← zpow_add₀ (by norm_num : (2:ℚ) ≠ 0)]
        congr 1
        ring

theorem roundDoublePos_le_zpow_succ {q : ℚ} (hq : 0 < q) :
    roundDoublePos q ≤ 2 ^ (ratLog2 q + 1) := by
  rw [roundDoublePos_def]
  have hup := scaled_upper hq
  have hf : ⌊q / 2 ^ (ratLog2 q - 52)⌋ < 9007199254740992 := by
    rw [Int.floor_lt]
    exact_mod_cast hup
  have h1 : rne (q / 2 ^ (ratLog2 q - 52)) ≤ 9007199254740992 := by
    have := rne_le_floor_add_one (q / 2 ^ (ratLog2 q - 52))
    omega
  calc (rne (q / 2 ^ (ratLog2 q - 52)) : ℚ) * 2 ^ (ratLog2 q - 52)
      ≤ (9007199254740992 : ℚ) * 2 ^ (ratLog2 q - 52) := by
        apply mul_le_mul_of_nonneg_right _ (le_of_lt (ulp_pos _))
        exact_mod_cast h1
    _ = 2 ^ (53:ℤ) * 2 ^ (ratLog2 q - 52) := by norm_num
    _ = 2 ^ (ratLog2 q + 1) := by
        rw [← zpow_add₀ (by norm_num : (2:ℚ) ≠ 0)]
        congr 1
        ring

theorem zpow_log_le_roundDoublePos {q : ℚ} (hq : 0 < q) :
    (2:ℚ) ^ ratLog2 q ≤ roundDoublePos q := by
  rw [roundDoublePos_def]
  have h := scaled_lower hq
  have hf : (4503599627370496 : ℤ) ≤ ⌊q / 2 ^ (ratLog2 q - 52)⌋ :=
    Int.le_floor.mpr (by exact_mod_cast h)
  have h1 : (4503599627370496 : ℤ) ≤ rne (q / 2 ^ (ratLog2 q - 52)) := by
    have := floor_le_rne (q / 2 ^ (ratLog2 q - 52))
    omega
  calc (2:ℚ) ^ ratLog2 q
      = 2 ^ (52:ℤ) * 2 ^ (ratLog2 q - 52) := by
        rw [← zpow_add₀ (by norm_num : (2:ℚ) ≠ 0)]
        congr 1
        ring
    _ = (4503599627370496 : ℚ) * 2 ^ (ratLog2 q - 52) := by norm_num
    _ ≤ (rne (q / 2 ^ (ratLog2 q - 52)) : ℚ) * 2 ^ (ratLog2 q - 52) := by
        apply mul_le_mul_of_nonneg_right _ (le_of_lt (ulp_pos _))
        exact_mod_cast h1

theorem roundDoublePos_mono {q r : ℚ} (hq : 0 < q) (hqr : q ≤ r) :
    roundDoublePos q ≤ roundDoublePos r := by
  have hr : 0 < r := lt_of_lt_of_le hq hqr
  have hle : ratLog2 q ≤ ratLog2 r := ratLog2_mono hq hqr
  rcases eq_or_lt_of_le hle with heq | hlt
  · rw [roundDoublePos_def, roundDoublePos_def, ← heq]
    apply mul_le_mul_of_nonneg_right _ (le_of_lt (ulp_pos _))
    have hd : q / 2 ^ (ratLog2 q - 52) ≤ r / 2 ^ (ratLog2 q - 52) :=
      (div_le_div_right (ulp_pos _)).mpr hqr
    exact_mod_cast rne_mono hd
  · calc roundDoublePos q ≤ 2 ^ (ratLog2 q + 1) := roundDoublePos_le_zpow_succ hq
      _ ≤ 2 ^ ratLog2 r := zpow_le_of_le (by norm_num) (by omega)
      _ ≤ roundDoublePos r := zpow_log_le_roundDoublePos hr

theorem roundDoublePos_eq_self {q : ℚ} (hq : 0 < q)
    (n : ℤ) (hn : q / 2 ^ (ratLog2 q - 52) = (n : ℚ)) :
    roundDoublePos q = q := by
  rw [roundDoublePos_def, hn, rne_intCast, ← hn, div_mul_cancel₀]
  exact ne_of_gt (ulp_pos _)

theorem roundDouble_zero : roundDouble 0 = 0 := by
  simp [roundDouble]

theorem roundDouble_of_pos {q : ℚ} (h : 0 < q) :
    roundDouble q = roundDoublePos q := by
  rw [roundDouble, if_neg (ne_of_gt h), if_pos h]

theorem roundDouble_pos {q : ℚ} (h : 0 < q) : 0 < roundDouble q := by
  rw [roundDouble_of_pos h]
  exact roundDoublePos_pos h

theorem roundDouble_nonneg {q : ℚ} (h : 0 ≤ q) : 0 ≤ roundDouble q := by
  rcases eq_or_lt_of_le h with h0 | h0
  · rw [← h0, roundDouble_zero]
  · exact le_of_lt (roundDouble_pos h0)

theorem roundDouble_mono {q r : ℚ} (h0 : 0 ≤ q) (h : q ≤ r) :
    roundDouble q ≤ roundDouble r := by
  rcases eq_or_lt_of_le h0 with hq0 | hq0
  · rw [← hq0, roundDouble_zero]
    exact roundDouble_nonneg (le_trans h0 h)
  · rw [roundDouble_of_pos hq0, roundDouble_of_pos (lt_of_lt_of_le hq0 h)]
    exact roundDoublePos_mono hq0 h

theorem abs_roundDouble_sub_le {q : ℚ} (hq : 0 < q) :
    |roundDouble q - q| ≤ 2 ^ (ratLog2 q - 53) := by
  rw [roundDouble_of_pos hq]
  exact abs_roundDoublePos_sub_le hq

theorem roundDouble_natCast {n : ℕ} (hn : n < 2 ^ 53) :
    roundDouble (n : ℚ) = (n : ℚ) := by
  rcases Nat.eq_zero_or_pos n with h0 | h0
  · subst h0
    simp [roundDouble]
  · have hq : (0:ℚ) < (n:ℚ) := by exact_mod_cast h0
    rw [roundDouble_of_pos hq]
    have hlog : ratLog2 ((n:ℚ)) = (natLog2 n : ℤ) := ratLog2_natCast n h0
    have hl52 : natLog2 n ≤ 52 := by
      by_contra hcon
      push_neg at hcon
      have h53 : (2:ℕ) ^ 53 ≤ 2 ^ natLog2 n := Nat.pow_le_pow_right (by norm_num) hcon
      have := (natLog2_bracket h0).1
      omega
    apply roundDoublePos_eq_self hq ((n : ℤ) * 2 ^ (52 - natLog2 n))
    rw [hlog]
    have hexp : (natLog2 n : ℤ) - 52 = -(((52 - natLog2 n : ℕ)) : ℤ) := by
      omega
    rw [hexp, zpow_neg, div_inv_eq_mul]
    push_cast
    rw [zpow_natCast]

theorem ratLog2_lt_of_lt_pow {q : ℚ} (hq : 0 < q) {k : ℕ}
    (h : q < ((2 ^ k : ℕ) : ℚ)) : ratLog2 q < (k : ℤ) := by
  by_contra hcon
  push_neg at hcon
  have h1 := (ratLog2_bracket hq).1
  have h2 : ((2 ^ k : ℕ) : ℚ) ≤ (2:ℚ) ^ ratLog2 q := by
    rw [← cast_two_pow]
    exact zpow_le_zpow_right₀ (by norm_num) hcon
  linarith

theorem abs_roundDouble_sub_le_of_lt {q : ℚ} (hq : 0 < q) {k : ℕ}
    (hk : q < ((2 ^ k : ℕ) : ℚ)) :
    |roundDouble q - q| ≤ 2 ^ ((k : ℤ) - 54) := by
  have h := abs_roundDouble_sub_le hq
  have h2 : ratLog2 q ≤ (k:ℤ) - 1 := by
    have := ratLog2_lt_of_lt_pow hq hk
    omega
  calc |roundDouble q - q| ≤ 2 ^ (ratLog2 q - 53) := h
    _ ≤ 2 ^ ((k:ℤ) - 54) := zpow_le_zpow_right₀ (by norm_num) (by omega)

/-- When the quotient is below 2^43 and the divisor is an exact integer
of at most 1000, binary64 rounding of `a / b` cannot cross an integer
boundary, so Python's `int()` of it is the exact floor. -/
theorem pyTrunc_roundDouble_div {a b : ℕ} (hb : 0 < b) (hb' : b ≤ 1000)
    (ha : a < 2 ^ 43) :
    pyTrunc (roundDouble ((a : ℚ) / b)) = ⌊(a : ℚ) / b⌋ := by
  have hb0 : (0:ℚ) < (b:ℚ) := by exact_mod_cast hb
  rcases Nat.eq_zero_or_pos a with h0 | h0
  · subst h0
    norm_num [roundDouble, pyTrunc]
  by_cases hdvd : a % b = 0
  · have hq : (a : ℚ) / b = ((a / b : ℕ) : ℚ) := by
      rw [div_eq_iff (ne_of_gt hb0)]
      exact_mod_cast (Nat.div_mul_cancel (Nat.dvd_of_mod_eq_zero hdvd)).symm
    rw [hq, roundDouble_natCast (by calc a / b ≤ a := Nat.div_le_self a b
          _ < 2 ^ 43 := ha
          _ < 2 ^ 53 := by norm_num)]
    rw [pyTrunc, if_pos (by positivity), Int.floor_natCast]
  · have hx0 : (0:ℚ) < (a:ℚ) / b := div_pos (by exact_mod_cast h0) hb0
    have hxlt : (a:ℚ) / b < ((2 ^ 43 : ℕ) : ℚ) := by
      calc (a:ℚ) / b ≤ (a:ℚ) := div_le_self (by positivity) (by exact_mod_cast hb)
        _ < ((2 ^ 43 : ℕ) : ℚ) := by exact_mod_cast ha
    have herr : |roundDouble ((a:ℚ)/b) - (a:ℚ)/b| ≤ 1/2048 := by
      calc |roundDouble ((a:ℚ)/b) - (a:ℚ)/b| ≤ (2:ℚ) ^ ((43:ℤ) - 54) :=
            abs_roundDouble_sub_le_of_lt hx0 hxlt
        _ = 1/2048 := by norm_num
    have hmod := Nat.div_add_mod a b
    have hr1 : 1 ≤ a % b := Nat.pos_of_ne_zero hdvd
    have hrb : a % b < b := Nat.mod_lt a hb
    have hcast : ((b:ℚ)) * ((a / b : ℕ) : ℚ) + ((a % b : ℕ) : ℚ) = (a:ℚ) := by
      exact_mod_cast hmod
    have hr1' : (1:ℚ) ≤ ((a % b : ℕ) : ℚ) := by exact_mod_cast hr1
    have hrb' : ((a % b : ℕ) : ℚ) + 1 ≤ (b:ℚ) := by exact_mod_cast hrb
    have hble : (b:ℚ) ≤ 1000 := by exact_mod_cast hb'
    have hlow : ((a / b : ℕ) : ℚ) + 1/1000 ≤ (a:ℚ) / b := by
      rw [le_div_iff hb0]
      nlinarith
    have hhigh : (a:ℚ) / b ≤ ((a / b : ℕ) : ℚ) + 1 - 1/1000 := by
      rw [div_le_iff hb0]
      nlinarith
    have habs := abs_le.mp herr
    have hylow : ((a / b : ℕ) : ℚ) < roundDouble ((a:ℚ)/b) := by linarith [habs.1]
    have hyhigh : roundDouble ((a:ℚ)/b) < ((a / b : ℕ) : ℚ) + 1 := by linarith [habs.2]
    have hfl : ⌊roundDouble ((a:ℚ)/b)⌋ = ((a / b : ℕ) : ℤ) := by
      have h1 : ((((a / b : ℕ) : ℤ)) : ℚ) ≤ roundDouble ((a:ℚ)/b) := by
        exact_mod_cast le_of_lt hylow
      have h2 : roundDouble ((a:ℚ)/b) < ((((a / b : ℕ) : ℤ)) : ℚ) + 1 := by
        exact_mod_cast hyhigh
      rw [Int.floor_eq_iff]
      exact ⟨h1, h2⟩
    rw [pyTrunc, if_pos (le_trans (by positivity) (le_of_lt hylow)), hfl,
      Rat.floor_natCast_div_natCast]
    exact_mod_cast rfl

end RoundDoubleLemmas

section RecordFrameLemmas

instance (a b : PyDateTime) : Decidable (dtLe a b) := by
  unfold dtLe
  infer_instance

theorem tod_le_of_dtLe {a b : PyDateTime} (hv : a.Valid) (hv' : b.Valid)
    (hy : a.year = b.year) (hm : a.month = b.month) (hd : a.day = b.day)
    (h : dtLe a b) : timeOfDayMicroseconds a ≤ timeOfDayMicroseconds b := by
  unfold dtLe at h
  unfold PyDateTime.Valid at hv hv'
  unfold timeOfDayMicroseconds
  omega

theorem totalSecondsFloat_nonneg (m : ℕ) : 0 ≤ totalSecondsFloat m := by
  unfold totalSecondsFloat fdiv
  exact roundDouble_nonneg (by positivity)

theorem totalSecondsFloat_mono {m n : ℕ} (h : m ≤ n) :
    totalSecondsFloat m ≤ totalSecondsFloat n := by
  unfold totalSecondsFloat fdiv
  apply roundDouble_mono (by positivity)
  have h' : (m:ℚ) ≤ (n:ℚ) := by exact_mod_cast h
  linarith

theorem floatOfNat_nonneg (n : ℕ) : 0 ≤ floatOfNat n :=
  roundDouble_nonneg (by positivity)

theorem compute_record_frame_nonneg (ts : PyDateTime) (fps : ℕ) :
    0 ≤ compute_record_frame ts fps := by
  unfold compute_record_frame pyRound fmul
  apply rne_nonneg
  exact roundDouble_nonneg
    (mul_nonneg (totalSecondsFloat_nonneg _) (floatOfNat_nonneg _))

theorem compute_record_frame_mono_tod {fps : ℕ} {t1 t2 : PyDateTime}
    (h : timeOfDayMicroseconds t1 ≤ timeOfDayMicroseconds t2) :
    compute_record_frame t1 fps ≤ compute_record_frame t2 fps := by
  unfold compute_record_frame pyRound fmul
  apply rne_mono
  apply roundDouble_mono
    (mul_nonneg (totalSecondsFloat_nonneg _) (floatOfNat_nonneg _))
  exact mul_le_mul_of_nonneg_right (totalSecondsFloat_mono h) (floatOfNat_nonneg _)

end RecordFrameLemmas

section DurationLemmas

/-- On texts whose `DiffTime` total is below 2^43 milliseconds, at a
frame rate dividing 1000, the double-precision computation in
`get_clip_duration_frames` gives the exact truncated quotient. -/
theorem get_clip_duration_frames_exact (content : List Char) (fps : ℕ)
    (hfps : 0 < fps) (hdvd : fps ∣ 1000)
    (hne : findDiffTimes content ≠ [])
    (hbound : (findDiffTimes content).sum < 2 ^ 43) :
    get_clip_duration_frames content fps
      = some ⌊((findDiffTimes content).sum : ℚ) / ((1000 : ℚ) / (fps : ℚ))⌋ := by
  obtain ⟨m, hm⟩ := hdvd
  have hmpos : 0 < m := by
    rcases Nat.eq_zero_or_pos m with h | h
    · subst h
      omega
    · exact h
  have hcomm : (1000 : ℕ) = m * fps := by
    rw [hm, Nat.mul_comm]
  have hm1000 : m ≤ 1000 := Nat.le_of_dvd (by norm_num) ⟨fps, hcomm⟩
  have hfps1000 : fps ≤ 1000 := Nat.le_of_dvd (by norm_num) ⟨m, hm⟩
  have hq : (1000:ℚ) / (fps:ℚ) = (m:ℚ) := by
    rw [div_eq_iff (by exact_mod_cast hfps.ne' : (fps:ℚ) ≠ 0)]
    exact_mod_cast hcomm
  rw [hq]
  have hstep : get_clip_duration_frames content fps
      = some (pyTrunc (fdiv (floatOfNat (findDiffTimes content).sum)
          (fdiv 1000 (floatOfNat fps)))) := by
    unfold get_clip_duration_frames
    cases hds : findDiffTimes content with
    | nil => exact absurd hds hne
    | cons d ds => rfl
  have hffps : floatOfNat fps = (fps:ℚ) :=
    roundDouble_natCast (lt_of_le_of_lt hfps1000 (by norm_num))
  have hfm : fdiv 1000 (floatOfNat fps) = (m:ℚ) := by
    unfold fdiv
    rw [hffps, hq]
    exact roundDouble_natCast (lt_of_le_of_lt hm1000 (by norm_num))
  have hsum : floatOfNat (findDiffTimes content).sum
      = (((findDiffTimes content).sum : ℕ) : ℚ) :=
    roundDouble_natCast (lt_trans hbound (by norm_num))
  rw [hstep, hfm, hsum]
  unfold fdiv
  rw [pyTrunc_roundDouble_div hmpos hm1000 hbound]

end DurationLemmas

section ParseLemmas

theorem matchTimestampAt_nil : matchTimestampAt [] = none := rfl

theorem findTimestamp_eq_none_iff (l : List Char) :
    findTimestamp l = none ↔ ∀ i, matchTimestampAt (l.drop i) = none := by
  induction l with
  | nil =>
    simp [findTimestamp, List.drop_nil, matchTimestampAt_nil]
  | cons c cs ih =>
    constructor
    · intro h i
      unfold findTimestamp at h
      cases hm : matchTimestampAt (c :: cs) with
      | some f =>
        rw [hm] at h
        exact absurd h (by simp)
      | none =>
        rw [hm] at h
        cases i with
        | zero => exact hm
        | succ j =>
          rw [List.drop_succ_cons]
          exact (ih.mp h) j
    · intro h
      unfold findTimestamp
      have h0 := h 0
      rw [List.drop_zero] at h0
      rw [h0]
      exact ih.mpr fun j => by
        have := h (j + 1)
        rwa [List.drop_succ_cons] at this

theorem findTimestamp_eq_some_of_first {l : List Char} {i : ℕ} {f : TsRaw}
    (hm : matchTimestampAt (l.drop i) = some f)
    (hmin : ∀ j < i, matchTimestampAt (l.drop j) = none) :
    findTimestamp l = some f := by
  induction l generalizing i with
  | nil =>
    rw [List.drop_nil] at hm
    exact absurd hm (by simp [matchTimestampAt_nil])
  | cons c cs ih =>
    unfold findTimestamp
    cases i with
    | zero =>
      rw [List.drop_zero] at hm
      rw [hm]
    | succ j =>
      have h0 := hmin 0 (Nat.succ_pos j)
      rw [List.drop_zero] at h0
      rw [h0]
      rw [List.drop_succ_cons] at hm
      exact ih hm fun k hk => by
        have := hmin (k + 1) (by omega)
        rwa [List.drop_succ_cons] at this

end ParseLemmas

section GroupLemmas

theorem insertClip_keys (k : List Char) (c : ClipItem) :
    ∀ acc : List (List Char × List ClipItem),
      (insertClip k c acc).map Prod.fst
        = if k ∈ acc.map Prod.fst then acc.map Prod.fst
          else acc.map Prod.fst ++ [k] := by
  intro acc
  induction acc with
  | nil => simp [insertClip]
  | cons q rest ih =>
    obtain ⟨k', cs⟩ := q
    by_cases hk : k' = k
    · subst hk
      simp [insertClip]
    · rw [show insertClip k c ((k', cs) :: rest)
          = (k', cs) :: insertClip k c rest by simp [insertClip, hk]]
      simp only [List.map_cons]
      rw [ih]
      by_cases hmem : k ∈ rest.map Prod.fst
      · rw [if_pos hmem, if_pos (by simp [hmem])]
      · rw [if_neg hmem, if_neg (by simp [hmem, Ne.symm hk]), List.cons_append]

theorem insertClip_filter (k : List Char) (c : ClipItem)
    (processed : List ClipItem) (hkey : dayKeyChars c.ts = k) :
    ∀ acc : List (List Char × List ClipItem),
      (∀ p ∈ acc, p.2 = processed.filter (fun d => decide (dayKeyChars d.ts = p.1))) →
      (acc.map Prod.fst).Nodup →
      (k ∉ acc.map Prod.fst →
        processed.filter (fun d => decide (dayKeyChars d.ts = k)) = []) →
      ∀ p ∈ insertClip k c acc,
        p.2 = (processed ++ [c]).filter (fun d => decide (dayKeyChars d.ts = p.1)) := by
  intro acc
  induction acc with
  | nil =>
    intro h1 h3 hcomp p hp
    simp only [insertClip, List.mem_singleton] at hp
    subst hp
    rw [List.filter_append, hcomp (by simp)]
    simp [hkey]
  | cons q rest ih =>
    obtain ⟨k', cs⟩ := q
    intro h1 h3 hcomp p hp
    rw [List.map_cons, List.nodup_cons] at h3
    by_cases hk : k' = k
    · subst hk
      rw [show insertClip k' c ((k', cs) :: rest)
          = (k', cs ++ [c]) :: rest by simp [insertClip]] at hp
      rcases List.mem_cons.mp hp with hp | hp
      · subst hp
        rw [List.filter_append]
        have hcs := h1 (k', cs) (by simp)
        simp only at hcs
        rw [← hcs]
        simp [hkey]
      · have hpk : p.1 ≠ k' := by
          intro he
          have hmm : p.1 ∈ rest.map Prod.fst := List.mem_map_of_mem Prod.fst hp
          rw [he] at hmm
          exact h3.1 hmm
        have hp2 := h1 p (by simp [hp])
        rw [List.filter_append, hp2]
        have : ¬ (dayKeyChars c.ts = p.1) := by
          rw [hkey]
          exact fun he => hpk he.symm
        simp [this]
    · rw [show insertClip k c ((k', cs) :: rest)
          = (k', cs) :: insertClip k c rest by simp [insertClip, hk]] at hp
      rcases List.mem_cons.mp hp with hp | hp
      · subst hp
        have hp2 := h1 (k', cs) (by simp)
        simp only at hp2
        rw [List.filter_append, hp2]
        have : ¬ (dayKeyChars c.ts = k') := by
          rw [hkey]
          exact fun he => hk he.symm
        simp [this]
      · exact ih (fun q hq => h1 q (by simp [hq])) h3.2
          (fun hnk => hcomp (by simp [hnk, Ne.symm hk])) p hp

theorem groupByDate_fold (items : List ClipItem) :
    ∀ (processed : List ClipItem) (acc : List (List Char × List ClipItem)),
      (∀ p ∈ acc, p.2 = processed.filter (fun d => decide (dayKeyChars d.ts = p.1))) →
      (acc.map Prod.fst).Nodup →
      (∀ d ∈ processed, dayKeyChars d.ts ∈ acc.map Prod.fst) →
      ∀ p ∈ items.foldl (fun a c => insertClip (dayKeyChars c.ts) c a) acc,
        p.2 = (processed ++ items).filter (fun d => decide (dayKeyChars d.ts = p.1)) := by
  induction items with
  | nil =>
    intro processed acc h1 h3 h2 p hp
    simpa using h1 p hp
  | cons x xs ih =>
    intro processed acc h1 h3 h2 p hp
    simp only [List.foldl_cons] at hp
    have hcomp : dayKeyChars x.ts ∉ acc.map Prod.fst →
        processed.filter (fun d => decide (dayKeyChars d.ts = dayKeyChars x.ts)) = [] := by
      intro hnk
      rw [List.filter_eq_nil]
      intro d hd hdec
      exact hnk (of_decide_eq_true hdec ▸ h2 d hd)
    have hkeys := insertClip_keys (dayKeyChars x.ts) x acc
    have h1' := insertClip_filter (dayKeyChars x.ts) x processed rfl acc h1 h3 hcomp
    have h3' : ((insertClip (dayKeyChars x.ts) x acc).map Prod.fst).Nodup := by
      rw [hkeys]
      split
      · exact h3
      · rename_i hnm
        simp [List.nodup_append, h3, hnm]
    have h2' : ∀ d ∈ processed ++ [x],
        dayKeyChars d.ts ∈ (insertClip (dayKeyChars x.ts) x acc).map Prod.fst := by
      rw [hkeys]
      intro d hd
      rcases List.mem_append.mp hd with hd | hd
      · have hmem := h2 d hd
        split
        · exact hmem
        · simp [hmem]
      · rw [List.mem_singleton] at hd
        subst hd
        split
        · rename_i hmem
          exact hmem
        · simp
    have := ih (processed ++ [x]) _ h1' h3' h2' p hp
    simpa [List.append_assoc] using this

theorem groupByDate_filter (items : List ClipItem) :
    ∀ p ∈ groupByDate items,
      p.2 = items.filter (fun d => decide (dayKeyChars d.ts = p.1)) := by
  intro p hp
  have := groupByDate_fold items [] [] (by simp) (by simp) (by simp) p hp
  simpa using this

end GroupLemmas

section SortLemmas

theorem mem_insertByKey {x z : ClipInfo} :
    ∀ {l : List ClipInfo}, z ∈ insertByKey x l → z = x ∨ z ∈ l := by
  intro l
  induction l with
  | nil =>
    intro h
    simp only [insertByKey, List.mem_singleton] at h
    exact Or.inl h
  | cons y ys ih =>
    intro h
    unfold insertByKey at h
    split at h
    · rcases List.mem_cons.mp h with h | h
      · exact Or.inr (by simp [h])
      · rcases ih h with h | h
        · exact Or.inl h
        · exact Or.inr (by simp [h])
    · rcases List.mem_cons.mp h with h | h
      · exact Or.inl h
      · exact Or.inr h

theorem sorted_insertByKey {x : ClipInfo} {l : List ClipInfo}
    (hl : l.Pairwise (fun a b => a.recordFrame ≤ b.recordFrame)) :
    (insertByKey x l).Pairwise (fun a b => a.recordFrame ≤ b.recordFrame) := by
  induction l with
  | nil => simp [insertByKey]
  | cons y ys ih =>
    rw [List.pairwise_cons] at hl
    obtain ⟨hy, hys⟩ := hl
    unfold insertByKey
    split
    · rename_i hlt
      rw [List.pairwise_cons]
      refine ⟨?_, ih hys⟩
      intro z hz
      rcases mem_insertByKey hz with rfl | hz
      · exact le_of_lt hlt
      · exact hy z hz
    · rename_i hge
      push_neg at hge
      rw [List.pairwise_cons]
      refine ⟨?_, List.pairwise_cons.mpr ⟨hy, hys⟩⟩
      intro z hz
      rcases List.mem_cons.mp hz with rfl | hz
      · exact hge
      · exact le_trans hge (hy z hz)

theorem sorted_pySort (l : List ClipInfo) :
    (pySortByRecordFrame l).Pairwise (fun a b => a.recordFrame ≤ b.recordFrame) := by
  unfold pySortByRecordFrame
  induction l with
  | nil => simp
  | cons x xs ih =>
    rw [List.foldr_cons]
    exact sorted_insertByKey ih

theorem filter_insertByKey (x : ClipInfo) (k : ℤ) :
    ∀ l : List ClipInfo,
      (insertByKey x l).filter (fun c => decide (c.recordFrame = k))
        = if x.recordFrame = k then
            x :: l.filter (fun c => decide (c.recordFrame = k))
          else l.filter (fun c => decide (c.recordFrame = k)) := by
  intro l
  induction l with
  | nil =>
    simp only [insertByKey]
    by_cases hx : x.recordFrame = k
    · simp [hx]
    · simp [hx]
  | cons y ys ih =>
    unfold insertByKey
    split
    · rename_i hlt
      rw [List.filter_cons, ih]
      by_cases hy : y.recordFrame = k
      · by_cases hx : x.recordFrame = k
        · exfalso
          rw [hy, hx] at hlt
          exact lt_irrefl _ hlt
        · simp [hy, hx, List.filter_cons]
      · by_cases hx : x.recordFrame = k
        · simp [hy, hx, List.filter_cons]
        · simp [hy, hx, List.filter_cons]
    · rename_i hge
      by_cases hx : x.recordFrame = k
      · simp [hx, List.filter_cons]
      · simp [hx, List.filter_cons]

theorem stable_pySort (l : List ClipInfo) (k : ℤ) :
    (pySortByRecordFrame l).filter (fun c => decide (c.recordFrame = k))
      = l.filter (fun c => decide (c.recordFrame = k)) := by
  unfold pySortByRecordFrame
  induction l with
  | nil => rfl
  | cons x xs ih =>
    rw [List.foldr_cons, filter_insertByKey, List.filter_cons]
    by_cases hx : x.recordFrame = k
    · simp [hx, ih]
    · simp [hx, ih]

end SortLemmas

section ResolutionLemmas

theorem reconcile_eq_foldl (ress : List (Option (List Char))) :
    reconcileResolution ress
      = (ress.filterMap (fun r => r.bind findRes)).foldl resStep (0, 0) := by
  unfold reconcileResolution
  generalize ((0, 0) : ℕ × ℕ) = init
  induction ress generalizing init with
  | nil => rfl
  | cons r rs ih =>
    cases r with
    | none =>
      rw [List.foldl_cons, List.filterMap_cons]
      simp only [Option.none_bind]
      exact ih init
    | some s =>
      cases hf : findRes s with
      | none =>
        rw [List.foldl_cons, List.filterMap_cons]
        simp only [Option.some_bind, hf]
        exact ih init
      | some wh =>
        obtain ⟨w, h⟩ := wh
        rw [List.foldl_cons, List.filterMap_cons]
        simp only [Option.some_bind, hf]
        rw [List.foldl_cons]
        exact ih _

theorem foldl_resStep_init_le :
    ∀ (l : List (ℕ × ℕ)) (init : ℕ × ℕ),
      init.1 * init.2 ≤ (l.foldl resStep init).1 * (l.foldl resStep init).2 := by
  intro l
  induction l with
  | nil => intro init; exact le_refl _
  | cons p ps ih =>
    intro init
    rw [List.foldl_cons]
    refine le_trans ?_ (ih (resStep init p))
    unfold resStep
    split
    · rename_i h
      exact le_of_lt h
    · exact le_refl _

theorem foldl_resStep_mem_le :
    ∀ (l : List (ℕ × ℕ)) (init : ℕ × ℕ) (p : ℕ × ℕ), p ∈ l →
      p.1 * p.2 ≤ (l.foldl resStep init).1 * (l.foldl resStep init).2 := by
  intro l
  induction l with
  | nil =>
    intro init p hp
    simp at hp
  | cons q qs ih =>
    intro init p hp
    rw [List.foldl_cons]
    rcases List.mem_cons.mp hp with rfl | hp
    · refine le_trans ?_ (foldl_resStep_init_le qs (resStep init p))
      unfold resStep
      split
      · exact le_refl _
      · rename_i h
        push_neg at h
        exact h
    · exact ih (resStep init q) p hp

theorem foldl_resStep_first :
    ∀ (l : List (ℕ × ℕ)) (init : ℕ × ℕ),
      l.foldl resStep init = init ∨
      (init.1 * init.2 < (l.foldl resStep init).1 * (l.foldl resStep init).2 ∧
        ∃ pre post, l = pre ++ (l.foldl resStep init) :: post ∧
          ∀ p ∈ pre, p.1 * p.2 < (l.foldl resStep init).1 * (l.foldl resStep init).2) := by
  intro l
  induction l with
  | nil => intro init; exact Or.inl rfl
  | cons q qs ih =>
    intro init
    rw [List.foldl_cons]
    by_cases hq : init.1 * init.2 < q.1 * q.2
    · have hstep : resStep init q = q := by
        unfold resStep
        rw [if_pos hq]
      rw [hstep]
      rcases ih q with heq | ⟨hlt, pre, post, hsplit, hpre⟩
      · rw [heq]
        exact Or.inr ⟨hq, [], qs, by simp, by simp⟩
      · refine Or.inr ⟨lt_trans hq (lt_of_lt_of_le ?_ (le_refl _)), q :: pre, post, ?_, ?_⟩
        · exact hlt
        · rw [List.cons_append, ← hsplit]
        · intro p hp
          rcases List.mem_cons.mp hp with rfl | hp
          · exact hlt
          · exact hpre p hp
    · have hstep : resStep init q = init := by
        unfold resStep
        rw [if_neg hq]
      rw [hstep]
      rcases ih init with heq | ⟨hlt, pre, post, hsplit, hpre⟩
      · exact Or.inl heq
      · refine Or.inr ⟨hlt, q :: pre, post, ?_, ?_⟩
        · rw [List.cons_append, ← hsplit]
        · intro p hp
          rcases List.mem_cons.mp hp with rfl | hp
          · push_neg at hq
            exact lt_of_le_of_lt hq hlt
          · exact hpre p hp

end ResolutionLemmas

section ScanLemmas

theorem norm_ext_eq_video_iff (name : List Char) :
    norm_ext name = ExtKind.video ↔
      (".mp4".data.isSuffixOf (lowerStr name) = true ∨
        ".mov".data.isSuffixOf (lowerStr name) = true) := by
  rw [← Bool.or_eq_true]
  unfold norm_ext
  split
  · rename_i h
    exact ⟨fun _ => h, fun _ => rfl⟩
  · rename_i h
    constructor
    · intro hv
      split at hv
      · exact absurd hv (by simp)
      · exact absurd hv (by simp)
    · intro hb
      exact absurd hb h

theorem take_one_dot_of_take_two {l : List Char}
    (h : l.take 2 = "._".data) : l.take 1 = ".".data := by
  cases l with
  | nil => simp at h
  | cons a as =>
    cases as with
    | nil =>
      have h2 : ([a] : List Char) = ['.', '_'] := by
        simpa using h
      simp at h2
    | cons b bs =>
      have h2 : a = '.' ∧ b = '_' := by
        have : ([a, b] : List Char) = ['.', '_'] := by
          simpa using h
        simpa using this
      simp [h2.1]

end ScanLemmas


/-! ## Claim theorems -/

section ClaimTheorems

theorem mainStartup_cases (cfg : MainConfig) :
    (mainStartup cfg).1 = [] ∨ (mainStartup cfg).1 = [StartupEffect.mkdirOutput] ∨
    ((mainStartup cfg).1
        = [StartupEffect.mkdirOutput, StartupEffect.setProjectFrameRate] ∧
      (mainStartup cfg).2 = none) := by
  unfold mainStartup
  split
  · exact Or.inl rfl
  · split
    · exact Or.inr (Or.inl rfl)
    · split
      · split
        · exact Or.inr (Or.inl rfl)
        · split
          · exact Or.inr (Or.inl rfl)
          · split
            · exact Or.inr (Or.inl rfl)
            · split
              · exact Or.inr (Or.inl rfl)
              · split
                · exact Or.inr (Or.inl rfl)
                · exact Or.inr (Or.inr ⟨rfl, rfl⟩)
      · split
        · exact Or.inr (Or.inl rfl)
        · split
          · exact Or.inr (Or.inl rfl)
          · exact Or.inr (Or.inr ⟨rfl, rfl⟩)

/-- C1 (amended): for every sidecar text containing at least one
`DiffTime: <N>ms` marker and every frame rate fps > 0 that divides 1000,
with the summed milliseconds below 2^43, `get_clip_duration_frames`
returns exactly floor(total_ms / (1000/fps)).  (The unrestricted claim
fails: the quotient is computed in IEEE-754 double precision, see the
counterexample at fps = 15.) -/
theorem duration_frames_exact_floor_of_divisor (content : List Char) (fps : ℕ)
    (hfps : 0 < fps) (hdvd : fps ∣ 1000)
    (hne : findDiffTimes content ≠ [])
    (hbound : (findDiffTimes content).sum < 2 ^ 43) :
    get_clip_duration_frames content fps
      = some ⌊((findDiffTimes content).sum : ℚ) / ((1000 : ℚ) / (fps : ℚ))⌋ :=
  get_clip_duration_frames_exact content fps hfps hdvd hne hbound

/-- C3: every clip is bucketed under the two-digit calendar-date key of
its own sidecar timestamp: all members of a day group carry a timestamp
whose day key equals the group key, and each group is exactly the filter
of the input list by that key — so group membership is fully determined
by the clip list (grouping is deterministic and idempotent) and never
depends on a containing folder's nominal date. -/
theorem groupByDate_day_key_invariant (items : List ClipItem)
    (p : List Char × List ClipItem) (hp : p ∈ groupByDate items) :
    (∀ c ∈ p.2, dayKeyChars c.ts = p.1) ∧
    p.2 = items.filter (fun c => decide (dayKeyChars c.ts = p.1)) := by
  have h := groupByDate_filter items p hp
  refine ⟨?_, h⟩
  intro c hc
  rw [h] at hc
  exact of_decide_eq_true (List.mem_filter.mp hc).2

/-- C4 (amended): `parse_srt_for_timestamp` returns `None` exactly when no
substring of the text matches the timestamp pattern; when a first match
exists it is handed to `strptime`, which yields the parsed datetime when
the matched fields form a valid calendar datetime and raises `ValueError`
otherwise (so the function is not exception-free, see the month-13
counterexample). -/
theorem parse_srt_first_match_spec (content : List Char) :
    (parse_srt_for_timestamp content = .ok none ↔
      ∀ i, matchTimestampAt (content.drop i) = none) ∧
    (∀ i f, matchTimestampAt (content.drop i) = some f →
      (∀ j, j < i → matchTimestampAt (content.drop j) = none) →
      parse_srt_for_timestamp content
        = match strptimeTs f with
          | some dt => .ok (some dt)
          | none => .error ()) := by
  constructor
  · constructor
    · intro h
      cases hf : findTimestamp content with
      | none => exact (findTimestamp_eq_none_iff content).mp hf
      | some f =>
        unfold parse_srt_for_timestamp at h
        rw [hf] at h
        cases hs : strptimeTs f with
        | some dt => simp [hs] at h
        | none => simp [hs] at h
    · intro hall
      unfold parse_srt_for_timestamp
      rw [(findTimestamp_eq_none_iff content).mpr hall]
  · intro i f hm hmin
    unfold parse_srt_for_timestamp
    rw [findTimestamp_eq_some_of_first hm hmin]

/-- C5: for every frame rate fps > 0 and valid timestamps T1 ≤ T2 falling
on the same calendar day, the record-frame offset of T1 is at most that
of T2; and for every timestamp and frame rate the offset is a
non-negative integer. -/
theorem record_frame_monotone_nonneg (fps : ℕ) (hfps : 0 < fps)
    (t1 t2 : PyDateTime) (hv1 : t1.Valid) (hv2 : t2.Valid)
    (hy : t1.year = t2.year) (hm : t1.month = t2.month) (hd : t1.day = t2.day)
    (hle : dtLe t1 t2) :
    compute_record_frame t1 fps ≤ compute_record_frame t2 fps ∧
    ∀ (ts : PyDateTime) (g : ℕ), 0 ≤ compute_record_frame ts g := by
  refine ⟨?_, fun ts g => compute_record_frame_nonneg ts g⟩
  exact compute_record_frame_mono_tod (tod_le_of_dtLe hv1 hv2 hy hm hd hle)

/-- C6: for every (camera, day) group, the placement-entry sequence handed
to the host sink — `clip_infos` after the line-297 sort — is ascending by
record-frame offset, and the sort is stable: for every offset value the
entries carrying it appear exactly as in discovery order. -/
theorem plan_entries_sorted_stable (fps : ℕ) (items : List ClipItem) :
    (pySortByRecordFrame (clipInfosOf fps items)).Pairwise
        (fun a b => a.recordFrame ≤ b.recordFrame) ∧
    ∀ k : ℤ, (pySortByRecordFrame (clipInfosOf fps items)).filter
          (fun c => decide (c.recordFrame = k))
        = (clipInfosOf fps items).filter (fun c => decide (c.recordFrame = k)) :=
  ⟨sorted_pySort _, fun k => stable_pySort _ k⟩

/-- C7: the reconciled resolution dominates the area of every parsed
resolution pair; when it is nonzero it is the first-encountered pair of
maximal width×height product (everything before it is strictly smaller,
so ties keep the first); unparsable or missing values are skipped; and
the spec's example 1920×1080, 3840×2160, 1280×720 yields 3840×2160. -/
theorem resolution_reconciliation_max_first (ress : List (Option (List Char))) :
    (∀ p ∈ ress.filterMap (fun r => r.bind findRes),
        p.1 * p.2 ≤ (reconcileResolution ress).1 * (reconcileResolution ress).2) ∧
    (0 < (reconcileResolution ress).1 * (reconcileResolution ress).2 →
      ∃ pre post, ress.filterMap (fun r => r.bind findRes)
          = pre ++ reconcileResolution ress :: post ∧
        ∀ p ∈ pre,
          p.1 * p.2 < (reconcileResolution ress).1 * (reconcileResolution ress).2) ∧
    reconcileResolution
        [some "1920x1080".data, some "3840x2160".data, some "1280x720".data]
      = (3840, 2160) := by
  refine ⟨?_, ?_, by decide⟩
  · intro p hp
    rw [reconcile_eq_foldl]
    exact foldl_resStep_mem_le _ _ p hp
  · intro hpos
    rw [reconcile_eq_foldl] at hpos ⊢
    rcases foldl_resStep_first (ress.filterMap fun r => r.bind findRes) (0, 0)
      with heq | ⟨hlt, pre, post, hsplit, hpre⟩
    · rw [heq] at hpos
      simp at hpos
    · exact ⟨pre, post, hsplit, hpre⟩

/-- C8 (amended): sanitization replaces each forbidden character
`\ / : * ? " < > |` by one underscore of its own and keeps every other
character, preserving length and positions; the example plan name
therefore exports as `Shoot_CAM A__1_24-05-10.xml` (two underscores, one
per forbidden character — not the single underscore the claim states). -/
theorem safe_filename_per_char (name : List Char) (i : ℕ)
    (h : i < name.length) :
    (safe_filename name).length = name.length ∧
    (safe_filename name).getD i 'A'
      = (if forbiddenChar (name.getD i 'A') then '_' else name.getD i 'A') ∧
    safe_filename "Shoot_CAM A*:1_24-05-10".data
      = "Shoot_CAM A__1_24-05-10".data := by
  refine ⟨by simp [safe_filename], ?_, by decide⟩
  unfold safe_filename
  rw [List.getD_eq_getElem?_getD, List.getD_eq_getElem?_getD, List.getElem?_map,
    List.getElem?_eq_getElem h]
  simp

/-- C9 (amended): a missing or non-directory source path aborts with no
side effects at all; a non-positive frame rate aborts after exactly one
side effect — the export directory was already created (line 177 runs
before the fps check at line 178), contradicting the unrestricted
no-side-effects claim; and no abort path ever reaches the host-sink
mutation (setting the project frame rate). -/
theorem startup_abort_effects (cfg : MainConfig) :
    (¬(cfg.pathExists = true ∧ cfg.pathIsDir = true) →
      mainStartup cfg = ([], some "日期文件夹不存在".data)) ∧
    ((cfg.pathExists = true ∧ cfg.pathIsDir = true) → cfg.fps ≤ 0 →
      mainStartup cfg
        = ([StartupEffect.mkdirOutput], some "帧率必须为正整数".data)) ∧
    (∀ msg, (mainStartup cfg).2 = some msg →
      StartupEffect.setProjectFrameRate ∉ (mainStartup cfg).1) := by
  refine ⟨?_, ?_, ?_⟩
  · intro h
    unfold mainStartup
    rw [if_pos h]
  · intro h1 h2
    unfold mainStartup
    rw [if_neg (not_not_intro h1), if_pos h2]
  · intro msg hmsg
    rcases mainStartup_cases cfg with h | h | h
    · rw [h]
      simp
    · rw [h]
      simp
    · rw [h.2] at hmsg
      simp at hmsg

/-- C10: `scan_videos` keeps exactly the regular-file entries whose name
ends case-insensitively in `.mp4` or `.mov` and whose own basename does
not start with `.` (the `._` test is subsumed); the hidden check reads
only the entry's basename, never its directory chain, so a qualifying
video inside a hidden directory is kept — witnessed by the concrete
instance under a `.hidden` directory. -/
theorem scan_videos_characterization (entries : List FsEntry) (e : FsEntry) :
    (e ∈ scan_videos entries ↔
      e ∈ entries ∧ e.isFile = true ∧
      (".mp4".data.isSuffixOf (lowerStr e.base) = true ∨
        ".mov".data.isSuffixOf (lowerStr e.base) = true) ∧
      ¬ e.base.take 1 = ".".data) ∧
    scan_videos [⟨[".hidden".data], "clip.MP4".data, true⟩]
      = [⟨[".hidden".data], "clip.MP4".data, true⟩] := by
  refine ⟨?_, by decide⟩
  unfold scan_videos
  rw [List.mem_filter]
  constructor
  · rintro ⟨hm, hc⟩
    simp only [Bool.and_eq_true, Bool.not_eq_true', Bool.or_eq_false_iff,
      decide_eq_false_iff_not, decide_eq_true_eq] at hc
    exact ⟨hm, hc.2.1, (norm_ext_eq_video_iff e.base).mp hc.2.2, hc.1.2⟩
  · rintro ⟨hm, hf, hsuf, hdot⟩
    refine ⟨hm, ?_⟩
    simp only [Bool.and_eq_true, Bool.not_eq_true', Bool.or_eq_false_iff,
      decide_eq_false_iff_not, decide_eq_true_eq]
    exact ⟨⟨fun h2 => hdot (take_one_dot_of_take_two h2), hdot⟩, hf,
      (norm_ext_eq_video_iff e.base).mpr hsuf⟩

end ClaimTheorems

section ConcreteEval

attribute [local semireducible] Rat.mul Rat.add Rat.sub Rat.inv

set_option maxRecDepth 8000

/-- C1 (counterexample): on the sidecar text `DiffTime: 1000ms` with
fps = 15 the source computes `int(1000 / (1000.0 / 15))` in binary64
doubles and returns 14, while the claimed exact-rational floor is 15
(`1000.0/15` rounds up, so the quotient lands just below 15 and `int`
truncates it). -/
theorem duration_frames_float_counterexample :
    get_clip_duration_frames "DiffTime: 1000ms".data 15 = some 14 ∧
    ⌊((findDiffTimes "DiffTime: 1000ms".data).sum : ℚ) / ((1000 : ℚ) / (15 : ℚ))⌋
      = 15 ∧ (14 : ℤ) ≠ 15 := by
  refine ⟨by decide, by decide, by decide⟩

/-- Witness for the C1 theorem at a concrete text and frame rate. -/
theorem duration_frames_exact_floor_of_divisor_witness :
    get_clip_duration_frames "DiffTime: 1000ms".data 25
      = some ⌊((findDiffTimes "DiffTime: 1000ms".data).sum : ℚ)
          / ((1000 : ℚ) / (25 : ℚ))⌋ :=
  duration_frames_exact_floor_of_divisor "DiffTime: 1000ms".data 25
    (by norm_num) (by norm_num) (by decide) (by decide)

/-- C2 (counterexample): for the clip timestamped 2024-05-09 23:59:59.500
at fps = 30 the record-frame offset is 2591985 (= 86399.5 s × 30 since
midnight), not 29985 or 29984 as the claim states. -/
theorem record_frame_midnight_edge_counterexample :
    compute_record_frame ⟨2024, 5, 9, 23, 59, 59, 500000⟩ 30 = 2591985 ∧
    ¬(compute_record_frame ⟨2024, 5, 9, 23, 59, 59, 500000⟩ 30 = 29985 ∨
      compute_record_frame ⟨2024, 5, 9, 23, 59, 59, 500000⟩ 30 = 29984) := by
  refine ⟨by decide, by decide⟩

/-- C2 (amended): the offset for 2024-05-09 23:59:59.500 at 30 fps is
deterministically 2591985 frames (the computation is exact in doubles, no
rounding ambiguity), the clip's day key is `24-05-09` — one frame before
midnight does not move it to the next day — and the spec's companion
scenario 2024-05-10 00:00:30.000 at 30 fps gives 900. -/
theorem record_frame_midnight_edge :
    compute_record_frame ⟨2024, 5, 9, 23, 59, 59, 500000⟩ 30 = 2591985 ∧
    dayKeyChars ⟨2024, 5, 9, 23, 59, 59, 500000⟩ = "24-05-09".data ∧
    compute_record_frame ⟨2024, 5, 10, 0, 0, 30, 0⟩ 30 = 900 := by
  refine ⟨by decide, by decide, by decide⟩

/-- Witness for C3 at a concrete one-clip list. -/
theorem groupByDate_day_key_invariant_witness :
    (∀ c ∈ (("24-05-09".data : List Char),
        [(⟨"v".data, "s".data, ⟨2024, 5, 9, 1, 2, 3, 4⟩⟩ : ClipItem)]).2,
      dayKeyChars c.ts = "24-05-09".data) ∧
    (("24-05-09".data : List Char),
        [(⟨"v".data, "s".data, ⟨2024, 5, 9, 1, 2, 3, 4⟩⟩ : ClipItem)]).2
      = [(⟨"v".data, "s".data, ⟨2024, 5, 9, 1, 2, 3, 4⟩⟩ : ClipItem)].filter
          (fun c => decide (dayKeyChars c.ts = "24-05-09".data)) :=
  groupByDate_day_key_invariant
    [⟨"v".data, "s".data, ⟨2024, 5, 9, 1, 2, 3, 4⟩⟩] _ (by decide)

/-- C4 (counterexample): on a text containing `2024-13-01 00:00:00.000`
the search regex matches, but `strptime` raises `ValueError` (there is no
month 13), so `parse_srt_for_timestamp` raises instead of returning. -/
theorem parse_srt_raises_counterexample :
    parse_srt_for_timestamp "x 2024-13-01 00:00:00.000 y".data = .error () := by
  decide

/-- Witness for C4 at a concrete sidecar text with a valid timestamp. -/
theorem parse_srt_first_match_spec_witness :
    parse_srt_for_timestamp "ab 2024-05-09 23:59:59.500 cd".data
      = .ok (some ⟨2024, 5, 9, 23, 59, 59, 500000⟩) := by
  have h := (parse_srt_first_match_spec "ab 2024-05-09 23:59:59.500 cd".data).2 3
      ⟨2024, 5, 9, 23, 59, 59, 500⟩ (by decide) (by decide)
  exact h.trans (by decide)

/-- Witness for C5 at two concrete same-day timestamps. -/
theorem record_frame_monotone_nonneg_witness :
    compute_record_frame ⟨2024, 5, 9, 10, 0, 0, 0⟩ 30
        ≤ compute_record_frame ⟨2024, 5, 9, 11, 30, 0, 0⟩ 30 ∧
    ∀ (ts : PyDateTime) (g : ℕ), 0 ≤ compute_record_frame ts g :=
  record_frame_monotone_nonneg 30 (by norm_num) _ _ (by decide) (by decide)
    rfl rfl rfl (by decide)

/-- Witness for C7's first-maximum decomposition at the example list. -/
theorem resolution_reconciliation_max_first_witness :
    ∃ pre post,
      [some "1920x1080".data, some "3840x2160".data,
          some "1280x720".data].filterMap (fun r => r.bind findRes)
        = pre ++ reconcileResolution [some "1920x1080".data,
            some "3840x2160".data, some "1280x720".data] :: post ∧
      ∀ p ∈ pre,
        p.1 * p.2 < (reconcileResolution [some "1920x1080".data,
            some "3840x2160".data, some "1280x720".data]).1 *
          (reconcileResolution [some "1920x1080".data,
            some "3840x2160".data, some "1280x720".data]).2 :=
  (resolution_reconciliation_max_first _).2.1 (by decide)

/-- C8 (counterexample): `Shoot_CAM A*:1_24-05-10` contains the two
forbidden characters `*` and `:`; each is replaced by its own underscore,
so the sanitized name is `Shoot_CAM A__1_24-05-10`, not the claimed
`Shoot_CAM A_1_24-05-10`. -/
theorem safe_filename_example_counterexample :
    safe_filename "Shoot_CAM A*:1_24-05-10".data
        = "Shoot_CAM A__1_24-05-10".data ∧
    "Shoot_CAM A__1_24-05-10".data ≠ "Shoot_CAM A_1_24-05-10".data := by
  refine ⟨by decide, by decide⟩

/-- Witness for C8's per-character description at a concrete name. -/
theorem safe_filename_per_char_witness :
    (safe_filename "a*b".data).length = "a*b".data.length ∧
    (safe_filename "a*b".data).getD 1 'A'
      = (if forbiddenChar ("a*b".data.getD 1 'A') then '_'
          else "a*b".data.getD 1 'A') ∧
    safe_filename "Shoot_CAM A*:1_24-05-10".data
      = "Shoot_CAM A__1_24-05-10".data :=
  safe_filename_per_char "a*b".data 1 (by decide)

/-- C9 (counterexample): with an existing source directory and the fatal
configuration fps = 0, the startup aborts only after creating the export
directory — a filesystem side effect precedes the abort, refuting the
no-partial-side-effects claim. -/
theorem startup_mkdir_before_fps_check_counterexample :
    mainStartup ⟨true, true, 0, [], [], [], [], [], true⟩
      = ([StartupEffect.mkdirOutput], some "帧率必须为正整数".data) ∧
    ([StartupEffect.mkdirOutput] : List StartupEffect) ≠ [] := by
  refine ⟨by decide, by decide⟩

/-- Witness for C9's abort-effect description. -/
theorem startup_abort_effects_witness :
    mainStartup ⟨false, true, 25, [], [], [], [], [], true⟩
      = ([], some "日期文件夹不存在".data) :=
  (startup_abort_effects ⟨false, true, 25, [], [], [], [], [], true⟩).1
    (by decide)

end ConcreteEval

end DroneSync
